import Mathlib

/-!
Verification development for the EPG timeline synthesizer of the TV repository
(`src/scripts/lista.py`).  The Python functions are shallowly embedded as pure
Lean functions:

* strings are handled through `List Char`;
* `datetime` values are modelled as absolute minutes (`Int`) on the proleptic
  Gregorian calendar (minute count since 0001-01-01 00:00), so the +2h offset
  is `+ 120` and a calendar day is `1440` minutes;
* the JSON feed is an association list preserving insertion order, exactly as
  Python dicts iterate;
* each `epg_content +=` emission of the generator becomes one structured
  `Item`; the warning print of the overlapping-announcement branch is modelled
  by the marker item `Item.warnAnn` so unreachability can be stated.

The embedded functions keep the names of the Python sources where possible:
`cleanText` (`clean_text`), `cleanChannelId` (`clean_channel_id`),
`load_json_for_epg` variants, `generateEpgXml` (`generate_epg_xml`),
`mainEpgGenerator` (`main_epg_generator`), `mergeEpg` (`epg_merger`).
-/

namespace TV

/-! ### Character classes -/

/-- ASCII whitespace recognised by Python's regex class.  (The source also
treats some further Unicode codepoints as whitespace; every whitespace
character, ASCII or not, is removed anyway by the later alphanumeric filter,
so the composite `cleanChannelId` is unaffected by this restriction.) -/
def isPyWs (c : Char) : Bool :=
  c = ' ' || c = '\t' || c = '\n' || c = '\x0b' || c = '\x0c' || c = '\r'

/-- The character class of `[a-zA-Z0-9]`. -/
def isAsciiAlnum (c : Char) : Bool :=
  decide (48 ≤ c.toNat ∧ c.toNat ≤ 57) ||
  decide (65 ≤ c.toNat ∧ c.toNat ≤ 90) ||
  decide (97 ≤ c.toNat ∧ c.toNat ≤ 122)

def isAsciiDigit (c : Char) : Bool :=
  decide (48 ≤ c.toNat ∧ c.toNat ≤ 57)

/-- Numeric value of a digit character. -/
def digitVal (c : Char) : Nat := c.toNat - 48

/-! ### `clean_text`: removal of the regex `</?span.*?>` -/

/-- Consume characters lazily up to the first `'>'`; fail on a newline or the
end of input (the regex dot does not match a newline). -/
def dropToGt : List Char → Option (List Char)
  | [] => none
  | c :: cs => if c = '>' then some cs else if c = '\n' then none else dropToGt cs

/-- Match `span.*?>` at the head of the input, returning the remainder. -/
def reqSpan : List Char → Option (List Char)
  | 's' :: 'p' :: 'a' :: 'n' :: rest => dropToGt rest
  | _ => none

/-- Match the regex `</?span.*?>` at the head of the input. -/
def spanMatch : List Char → Option (List Char)
  | '<' :: '/' :: rest => reqSpan rest
  | '<' :: rest => reqSpan rest
  | _ => none

/-- `re.sub(r'</?span.*?>', '', text)`: scan left to right, removing each
leftmost match and continuing after it.  The fuel argument only serves to
make the recursion structural; `cleanTextFuel_eq` shows any fuel of at least
the input length gives the same result. -/
def cleanTextFuel : Nat → List Char → List Char
  | 0, _ => []
  | fuel + 1, l =>
    match spanMatch l with
    | some rest => cleanTextFuel fuel rest
    | none =>
      match l with
      | [] => []
      | c :: cs => c :: cleanTextFuel fuel cs

def cleanTextAux (l : List Char) : List Char := cleanTextFuel l.length l

/-- `clean_text` of the source: strip `span` tags. -/
def cleanText (s : String) : String := ⟨cleanTextAux s.data⟩

/-! ### `clean_channel_id` -/

/-- `clean_channel_id` of the source: strip tags, remove whitespace, keep only
ASCII alphanumerics, and fall back to `"unknownchannel"` when empty. -/
def cleanChannelId (s : String) : String :=
  let t1 := cleanTextAux s.data
  let t2 := t1.filter (fun c => !isPyWs c)
  let t3 := t2.filter isAsciiAlnum
  if t3 = [] then "unknownchannel" else ⟨t3⟩

/-- Reference definition following the claim's words for the amended C4:
strip markup, keep only ASCII alphanumerics (case preserved), and map an
empty result to the sentinel. -/
def resolveAmended (s : String) : String :=
  let t := (cleanTextAux s.data).filter isAsciiAlnum
  if t = [] then "unknownchannel" else ⟨t⟩

/-- Reference definition following the original claim C4's words, including
the lowercasing step it asserts. -/
def resolveClaimed (s : String) : String :=
  let t := ((cleanTextAux s.data).filter isAsciiAlnum).map Char.toLower
  if t = [] then "unknownchannel" else ⟨t⟩

/-! ### Gregorian calendar

`datetime.date` values are modelled as `(year, month, day)` records; `toDays`
is the day count since 0001-01-01, so date comparison and the midnight of a
day agree with Python's ordinal arithmetic. -/

structure DateRec where
  year : Nat
  month : Nat
  day : Nat
deriving DecidableEq

def isLeap (y : Nat) : Bool := y % 4 = 0 && (y % 100 ≠ 0 || y % 400 = 0)

def daysInMonth (y m : Nat) : Nat :=
  if m = 2 then (if isLeap y then 29 else 28)
  else if m = 4 || m = 6 || m = 9 || m = 11 then 30
  else 31

def daysBeforeMonth (y m : Nat) : Nat :=
  (List.range (m - 1)).foldl (fun acc i => acc + daysInMonth y (i + 1)) 0

/-- Days elapsed since 0001-01-01 (`date.toordinal() - 1`). -/
def toDays (d : DateRec) : Nat :=
  365 * (d.year - 1) + (d.year - 1) / 4 - (d.year - 1) / 100 + (d.year - 1) / 400
    + daysBeforeMonth d.year d.month + (d.day - 1)

/-! ### `strptime` parsers

`datetime.strptime(s, "%H:%M")` and `datetime.strptime(s, "%A %d %b %Y")` are
embedded as total parsers over `List Char`, reproducing CPython's `_strptime`
regexes (`%H` = `2[0-3]|[01]\d|\d`, `%M` = `[0-5]\d|\d`, `%d` =
`3[01]|[12]\d|0[1-9]|[1-9]`, `%Y` = four digits, a space in the format
matching one or more whitespace characters, names case-insensitive, and the
whole string consumed). -/

def digitsVal (l : List Char) : Nat := l.foldl (fun acc c => 10 * acc + digitVal c) 0

def takeDigits (l : List Char) : List Char × List Char :=
  (l.takeWhile isAsciiDigit, l.dropWhile isAsciiDigit)

/-- `%H:%M`, returned as minutes after midnight. -/
def parseTimeHM (s : String) : Option Nat :=
  let (hs, rest) := takeDigits s.data
  match rest with
  | ':' :: rest2 =>
    let (ms, rest3) := takeDigits rest2
    let h := digitsVal hs
    let m := digitsVal ms
    if rest3 = [] &&
       (hs.length = 1 || (hs.length = 2 && h ≤ 23)) &&
       (ms.length = 1 || (ms.length = 2 && m ≤ 59)) then
      some (60 * h + m)
    else none
  | _ => none

/-- Case-insensitive keyword match, returning the remaining input. -/
def matchCI : List Char → List Char → Option (List Char)
  | [], l => some l
  | _ :: _, [] => none
  | k :: ks, c :: cs => if c.toLower = k then matchCI ks cs else none

/-- First keyword of the table matching a head of the input. -/
def matchFirstCI (table : List (List Char × Nat)) (l : List Char) :
    Option (Nat × List Char) :=
  match table with
  | [] => none
  | (kw, v) :: rest =>
    match matchCI kw l with
    | some r => some (v, r)
    | none => matchFirstCI rest l

def weekdayTable : List (List Char × Nat) :=
  [("monday".data, 0), ("tuesday".data, 1), ("wednesday".data, 2),
   ("thursday".data, 3), ("friday".data, 4), ("saturday".data, 5),
   ("sunday".data, 6)]

def monthTable : List (List Char × Nat) :=
  [("jan".data, 1), ("feb".data, 2), ("mar".data, 3), ("apr".data, 4),
   ("may".data, 5), ("jun".data, 6), ("jul".data, 7), ("aug".data, 8),
   ("sep".data, 9), ("oct".data, 10), ("nov".data, 11), ("dec".data, 12)]

/-- One or more whitespace characters (a literal space in a strptime format). -/
def skipWs1 : List Char → Option (List Char)
  | [] => none
  | c :: cs => if isPyWs c then some (cs.dropWhile isPyWs) else none

/-- `datetime.strptime(s, "%A %d %b %Y").date()`, including the validity check
performed by the `datetime` constructor. -/
def strptimeDate (l : List Char) : Option DateRec := do
  let (_, l) ← matchFirstCI weekdayTable l
  let l ← skipWs1 l
  let (ds, l) := takeDigits l
  let day := digitsVal ds
  if ds.length = 1 && 1 ≤ day || ds.length = 2 && 1 ≤ day && day ≤ 31 then
    let l ← skipWs1 l
    let (m, l) ← matchFirstCI monthTable l
    let l ← skipWs1 l
    let (ys, l) := takeDigits l
    let y := digitsVal ys
    if ys.length = 4 && l = [] && 1 ≤ y && day ≤ daysInMonth y m then
      some ⟨y, m, day⟩
    else none
  else none

/-! ### Date-key preprocessing of `generate_epg_xml` -/

/-- `date_key.split(' - ')[0]`: the prefix before the first `" - "`. -/
def splitDashPart : List Char → List Char
  | [] => []
  | c :: cs =>
    if c = ' ' ∧ cs.take 2 = ['-', ' '] then []
    else c :: splitDashPart cs

def isOrdSuffix (d e : Char) : Bool :=
  (d = 's' && e = 't') || (d = 'n' && e = 'd') ||
  (d = 'r' && e = 'd') || (d = 't' && e = 'h')

/-- `re.sub(r'(\d+)(st|nd|rd|th)', r'\1', s)`: drop an ordinal suffix that
immediately follows a digit. -/
def stripOrd : List Char → List Char
  | [] => []
  | [c] => [c]
  | [c, d] => [c, d]
  | c :: d :: e :: cs =>
    if isAsciiDigit c && isOrdSuffix d e then c :: stripOrd cs
    else c :: stripOrd (d :: e :: cs)

/-- Date parsing of one `date_key` in `generate_epg_xml` (lines 2066-2075). -/
def parseDateKey (key : String) : Option DateRec :=
  strptimeDate (stripOrd (splitDashPart key.data))

/-! ### Feed model

A channel record of the JSON feed.  `isDict` is false for a list entry that is
not a JSON object (the generator skips those with its `isinstance` check; the
loader assumes objects, as a non-object would raise in the Python source). -/

structure Chan where
  isDict : Bool := true
  channelName : Option String := none
deriving DecidableEq

/-- An event record of the JSON feed; `none` fields model absent JSON keys,
read through the source's `.get(key, default)` calls. -/
structure Event where
  time : Option String := none
  title : Option String := none
  description : Option String := none
  channels : List Chan := []
deriving DecidableEq

/-- `category name -> events`, in insertion order. -/
abbrev Categories := List (String × List Event)

/-- `date key -> categories`, in insertion order. -/
abbrev RawFeed := List (String × Categories)

/-! ### `load_json_for_epg` (both variants) -/

/-- `str.split()` on whitespace, dropping empty words; accumulator holds the
current word reversed. -/
def wordsWsAux : List Char → List Char → List (List Char)
  | [], acc => if acc = [] then [] else [acc.reverse]
  | c :: cs, acc =>
    if isPyWs c then
      (if acc = [] then wordsWsAux cs [] else acc.reverse :: wordsWsAux cs [])
    else wordsWsAux cs (c :: acc)

/-- `channel_name.lower().split()` applied to the cleaned channel name. -/
def chanNameWords (ch : Chan) : List String :=
  let name := cleanText (ch.channelName.getD "")
  (wordsWsAux (name.data.map Char.toLower) []).map (fun l => (⟨l⟩ : String))

/-- Keyword whole-word test of the loaders. -/
def chanKeep (kw : List String) (ch : Chan) : Bool :=
  (chanNameWords ch).any (fun w => kw.contains w)

/-- Keyword list of `epg_eventi_dlhd_generator_world` (line 1744). -/
def kwWorld : List String :=
  ["italy", "rai", "italia", "it", "uk", "tnt", "usa",
   "tennis channel", "tennis stream", "la"]

/-- Keyword list of `epg_eventi_dlhd_generator` (line 2014). -/
def kwItaly : List String := ["italy", "rai", "italia", "it"]

/-- Channel filtering of one event (lines 2022-2035): keep the channels whose
name has a whole-word keyword match, and drop the event if none survives. -/
def filterEventChans (kw : List String) (e : Event) : Option Event :=
  let fc := e.channels.filter (chanKeep kw)
  if fc.isEmpty then none else some { e with channels := fc }

/-- Per-event filter of the world-variant loader (lines 1751-1784): drop the
event on an unparseable time or on a time between 00:00 and 04:00 inclusive,
then filter channels. -/
def filterEventWorld (e : Event) : Option Event :=
  match parseTimeHM (e.time.getD "00:00") with
  | none => none
  | some t => if t ≤ 240 then none else filterEventChans kwWorld e

/-- The nested date/category traversal shared by both loader variants:
empty categories and empty dates are omitted from the result. -/
def loadFilterWith (f : Event → Option Event) (feed : RawFeed) : RawFeed :=
  (feed.map (fun sec =>
      (sec.1, (sec.2.map (fun cat => (cat.1, cat.2.filterMap f))).filter
        (fun cat => !cat.2.isEmpty)))).filter
    (fun sec => !sec.2.isEmpty)

/-- `load_json_for_epg` of `epg_eventi_dlhd_generator` (lines 1997-2046). -/
def load_json_for_epg (feed : RawFeed) : RawFeed :=
  loadFilterWith (filterEventChans kwItaly) feed

/-- `load_json_for_epg` of `epg_eventi_dlhd_generator_world` (lines
1727-1792). -/
def load_json_for_epg_world (feed : RawFeed) : RawFeed :=
  loadFilterWith filterEventWorld feed

/-! ### `generate_epg_xml`

Each `epg_content +=` block of the source is one `Item`; the announcement
items carry the fixed category `"Annuncio"` in their constructor.  The
warning print of the unresolved-overlap branch (line 2162) is modelled by
`Item.warnAnn`. -/

inductive Item where
  | channelTag (id displayName : String)
  | ann (start stop : Int) (channel : String) (title desc : String)
  | mainProg (start stop : Int) (channel : String) (title desc category : String)
  | warnAnn (channel : String)
deriving DecidableEq

def pad2 (n : Nat) : String := if n < 10 then "0" ++ toString n else toString n

/-- `strftime("%H:%M")` of an absolute local minute count. -/
def fmtHM (t : Int) : String :=
  let m := (t % 1440).toNat
  pad2 (m / 60) ++ ":" ++ pad2 (m % 60)

/-- Per-run mutable state: the declared-channel registry (global to the run)
and the per-date last-end map. -/
structure GenState where
  declared : List String
  lastEnd : List (String × Int)
deriving DecidableEq

/-- Lookup in the last-end map. -/
def findVal (k : String) : List (String × Int) → Option Int
  | [] => none
  | e :: r => if e.1 = k then some e.2 else findVal k r

/-- Local midnight of the day containing minute `t`
(`datetime.combine(t.date(), datetime.min.time())`). -/
def dayStart (t : Int) : Int := 1440 * (t / 1440)

/-- The announcement-start computation of lines 2134-2148: the previous end
when it is strictly earlier than the current start, otherwise the local
midnight fallback. -/
def annStartCalc (prev : Option Int) (loc : Int) : Int :=
  match prev with
  | some p => if p < loc then p else dayStart loc
  | none => dayStart loc

/-- The body of the inner per-channel loop (lines 2116-2175) for one channel
record.  The source also computes `channel_name_cleaned`, which it never
uses; that dead local is not represented. -/
def stepChannel (catName eventName eventDesc channelId : String) (loc : Int)
    (st : GenState) (ch : Chan) : GenState × List Item :=
  if !ch.isDict then (st, [])
  else
    let declItems : List Item :=
      if channelId ∈ st.declared then [] else [.channelTag channelId eventName]
    let declared' :=
      if channelId ∈ st.declared then st.declared else channelId :: st.declared
    let s := annStartCalc (findVal channelId st.lastEnd) loc
    let annItems : List Item :=
      if s < loc then
        [.ann s loc channelId ("Inizia alle " ++ fmtHM loc ++ ".") (eventName ++ ".")]
      else if s = loc then []
      else [.warnAnn channelId]
    let mainItem : Item :=
      .mainProg loc (loc + 120) channelId eventDesc eventName (cleanText catName)
    (⟨declared', (channelId, loc + 120) :: st.lastEnd⟩,
     declItems ++ annItems ++ [mainItem])

/-- The per-channel loop over `channels_list`. -/
def processChans (catName eventName eventDesc channelId : String) (loc : Int) :
    GenState → List Chan → GenState × List Item
  | st, [] => (st, [])
  | st, ch :: rest =>
    let p1 := stepChannel catName eventName eventDesc channelId loc st ch
    let p2 := processChans catName eventName eventDesc channelId loc p1.1 rest
    (p2.1, p1.2 ++ p2.2)

/-- One iteration of the per-event loop (lines 2091-2175): unparseable times
and stale events are skipped, as are events with an empty channel list. -/
def processEvent (nowLocal : Int) (datePart : DateRec) (catName : String)
    (st : GenState) (e : Event) : GenState × List Item :=
  let eventName := cleanText (e.title.getD "Evento Sconosciuto")
  let eventDesc := e.description.getD "Trasmesso in diretta."
  let channelId := cleanChannelId eventName
  match parseTimeHM (e.time.getD "00:00") with
  | none => (st, [])
  | some t =>
    let loc : Int := (toDays datePart : Int) * 1440 + (t : Int) + 120
    if loc < nowLocal - 120 then (st, [])
    else if e.channels.isEmpty then (st, [])
    else processChans catName eventName eventDesc channelId loc st e.channels

/-! Stable insertion sort, extensionally equal to Python's stable `sorted`. -/

def insertLe {α : Type} (le : α → α → Bool) (x : α) : List α → List α
  | [] => [x]
  | y :: ys => if le x y then x :: y :: ys else y :: insertLe le x ys

def isortBy {α : Type} (le : α → α → Bool) (l : List α) : List α :=
  l.foldr (insertLe le) []

/-- The sort key `datetime.strptime(x.get("time", "00:00"), "%H:%M").time()`. -/
def evtKey (e : Event) : Nat := (parseTimeHM (e.time.getD "00:00")).getD 0

/-- Sorting of a category's events (lines 2082-2089): on any unparseable time
the `sorted` call raises and the original order is kept. -/
def sortEvts (l : List Event) : List Event :=
  if l.all (fun e => (parseTimeHM (e.time.getD "00:00")).isSome) then
    isortBy (fun a b => decide (evtKey a ≤ evtKey b)) l
  else l

/-- Events of a category, tagged with the category name. -/
def processTagged (nowLocal : Int) (d : DateRec) :
    GenState → List (String × Event) → GenState × List Item
  | st, [] => (st, [])
  | st, te :: rest =>
    let p1 := processEvent nowLocal d te.1 st te.2
    let p2 := processTagged nowLocal d p1.1 rest
    (p2.1, p1.2 ++ p2.2)

/-- One category of a date section. -/
def processCat (nowLocal : Int) (d : DateRec) (st : GenState)
    (cat : String × List Event) : GenState × List Item :=
  processTagged nowLocal d st ((sortEvts cat.2).map (fun e => (cat.1, e)))

/-- The category loop of a date section. -/
def processCats (nowLocal : Int) (d : DateRec) :
    GenState → Categories → GenState × List Item
  | st, [] => (st, [])
  | st, c :: rest =>
    let p1 := processCat nowLocal d st c
    let p2 := processCats nowLocal d p1.1 rest
    (p2.1, p1.2 ++ p2.2)

/-- One date section (lines 2061-2078): parse the key, skip dates before
today, and process the categories with a fresh last-end map. -/
def processDateSection (nowLocal : Int) (declared : List String)
    (sec : String × Categories) : List String × List Item :=
  match parseDateKey sec.1 with
  | none => (declared, [])
  | some d =>
    if (toDays d : Int) < nowLocal / 1440 then (declared, [])
    else
      let p := processCats nowLocal d ⟨declared, []⟩ sec.2
      (p.1.declared, p.2)

def genAux (nowLocal : Int) : List String → RawFeed → List String × List Item
  | declared, [] => (declared, [])
  | declared, sec :: rest =>
    let p1 := processDateSection nowLocal declared sec
    let p2 := genAux nowLocal p1.1 rest
    (p2.1, p1.2 ++ p2.2)

/-- `generate_epg_xml` (lines 2048-2178), as the list of emitted items.
`nowLocal` is `current_datetime_local` in absolute local minutes; the XML
header and the closing root tag carry no information and are not
represented (an empty item list is the document holding only the root
wrapper). -/
def generateEpgXml (nowLocal : Int) (feed : RawFeed) : List Item :=
  (genAux nowLocal [] feed).2

/-- `main_epg_generator` (lines 2191-2215): an empty filtered feed aborts the
run with a `False` result before anything is generated or written; otherwise
the generated document is written.  The returned pair is (reported success,
written document). -/
def mainEpgGenerator (feed : RawFeed) (nowLocal : Int) :
    Bool × Option (List Item) :=
  let fd := load_json_for_epg feed
  if fd.isEmpty then (false, none)
  else (true, some (generateEpgXml nowLocal fd))

/-! ### `epg_merger` (lines 241-358)

A guide fragment is modelled as the list of its root's child nodes; `payload`
stands for all content of a node other than its channel-id-bearing
attribute. -/

inductive NodeKind where
  | channel
  | programme
  | other
deriving DecidableEq

structure Node where
  kind : NodeKind
  idAttr : Option String := none
  channelAttr : Option String := none
  payload : String := ""
deriving DecidableEq

/-- `clean_attribute` (lines 335-339): remove spaces, lowercase. -/
def cleanAttrVal (s : String) : String :=
  ⟨(s.data.filter (fun c => c ≠ ' ')).map Char.toLower⟩

def cleanChannelNode (n : Node) : Node :=
  if n.kind = .channel then { n with idAttr := n.idAttr.map cleanAttrVal } else n

def cleanProgNode (n : Node) : Node :=
  if n.kind = .programme then { n with channelAttr := n.channelAttr.map cleanAttrVal }
  else n

def isProgrammeNode (n : Node) : Bool := n.kind = .programme

/-- `epg_merger`: append every child of each downloaded gzip fragment, then
only the `programme` nodes of the local events file (when the `CANALI_DADDY`
flag is `"si"` and the file parses) and of the `it.xml` fragment, then
normalize the channel-id attributes of all channel and programme nodes. -/
def mergeEpg (gzFrags : List (List Node)) (daddy : Bool)
    (eventiFrag : Option (List Node)) (itFrag : Option (List Node)) :
    List Node :=
  let r1 := gzFrags.foldl (fun acc fr => acc ++ fr) []
  let r2 := r1 ++
    (if daddy then
      (match eventiFrag with
       | some f => f.filter isProgrammeNode
       | none => [])
     else [])
  let r3 := r2 ++
    (match itFrag with
     | some f => f.filter isProgrammeNode
     | none => [])
  (r3.map cleanChannelNode).map cleanProgNode

/-! ### Observation functions used by the claims -/

def blockOfItem (c : String) : Item → Option (Int × Int)
  | .ann s t ch _ _ => if ch = c then some (s, t) else none
  | .mainProg s t ch _ _ _ => if ch = c then some (s, t) else none
  | _ => none

/-- The (start, stop) pairs of the programme blocks emitted for channel `c`,
in emission order. -/
def blocksFor (c : String) (items : List Item) : List (Int × Int) :=
  items.filterMap (blockOfItem c)

def isDeclFor (c : String) : Item → Bool
  | .channelTag id _ => id = c
  | _ => false

/-- Number of channel declarations emitted for channel `c`. -/
def declsFor (c : String) (items : List Item) : Nat :=
  (items.filter (isDeclFor c)).length

/-- Stable sort of programme blocks by start timestamp. -/
def sortByStart (l : List (Int × Int)) : List (Int × Int) :=
  isortBy (fun a b => decide (a.1 ≤ b.1)) l

/-- Non-overlap check: each block stops no later than the next one starts. -/
def chainOkB : List (Int × Int) → Bool
  | [] => true
  | [_] => true
  | a :: b :: r => decide (a.2 ≤ b.1) && chainOkB (b :: r)

def isWarnItem : Item → Bool
  | .warnAnn _ => true
  | _ => false

/-- Erase the category text of main programme blocks (used to state that a
category's name influences nothing but that text). -/
def stripCat : Item → Item
  | .mainProg s t ch ti de _ => .mainProg s t ch ti de ""
  | i => i



/-- The `.//programme` selection applied to an optional fragment. -/
def progsOfOpt : Option (List Node) → List Node
  | some f => f.filter isProgrammeNode
  | none => []


/-! ### Concrete fixtures used by counterexamples and witnesses -/

/-- A single well-formed event: 18:00, title "Match X", one channel whose
name has the whole-word keyword "rai". -/
def exEvent : Event :=
  { time := some "18:00", title := some "Match X",
    channels := [{ channelName := some "Rai 1" }] }

/-- A one-event feed dated 2025-10-12 under the category "Football". -/
def exFeedC6 : RawFeed := [("Sunday 12 Oct 2025", [("Football", [exEvent])])]


/-- Minutes from the calendar origin to 2025-10-12 00:00 local. -/
def exBase : Int := (toDays ⟨2025, 10, 12⟩ : Int) * 1440

/-- An event filed at 03:59 with an admissible channel. -/
def exEventC2 : Event :=
  { time := some "03:59", title := some "Late Game",
    channels := [{ channelName := some "Italy Sports 1" }] }

/-- A feed dated 2025-10-11 — "yesterday" relative to a run at noon of
2025-10-12. -/
def exFeedC2 : RawFeed := [("Saturday 11 Oct 2025", [("Football", [exEventC2])])]

/-- An evening event with an admissible channel. -/
def exEventC3 : Event :=
  { time := some "18:00", title := some "Future Cup",
    channels := [{ channelName := some "Rai 1" }] }

/-- A feed dated 2025-10-13 — "tomorrow" relative to a run at noon of
2025-10-12. -/
def exFeedC3 : RawFeed := [("Monday 13 Oct 2025", [("Football", [exEventC3])])]


/-- An otherwise-admissible event filed under the category "TV Shows". -/
def exEventC5 : Event :=
  { time := some "18:00", title := some "Some Show",
    channels := [{ channelName := some "Rai 1" }] }

/-- A feed whose only category is "TV Shows", dated 2025-10-12. -/
def exFeedC5 : RawFeed := [("Sunday 12 Oct 2025", [("TV Shows", [exEventC5])])]


/-- Declaration bookkeeping between a declared-set `d0` before and `d1`
after a processing unit emitting `items`: an already-declared channel is
never re-declared, at most one declaration is emitted, the declared set
afterwards records exactly whether a declaration exists, and any prefix
already containing a programme block for the channel contains its
declaration. -/
def declInv (c : String) (d0 d1 : List String) (items : List Item) : Prop :=
  (c ∈ d0 → declsFor c items = 0) ∧
  declsFor c items ≤ 1 ∧
  (c ∈ d1 ↔ c ∈ d0 ∨ 1 ≤ declsFor c items) ∧
  (∀ pre suf, items = pre ++ suf → blocksFor c pre ≠ [] →
    c ∈ d0 ∨ 1 ≤ declsFor c pre)


/-! ### Observations for the timeline non-overlap analysis (C1) -/

/-- The offset-corrected local start of an event, when its time parses. -/
def eventLoc (d : DateRec) (e : Event) : Option Int :=
  (parseTimeHM (e.time.getD "00:00")).map
    (fun (t : Nat) => (toDays d : Int) * 1440 + (t : Int) + 120)

/-- The channel id the generator derives for an event. -/
def eventCid (e : Event) : String :=
  cleanChannelId (cleanText (e.title.getD "Evento Sconosciuto"))

/-- Whether the per-event loop admits the event: a parseable time, a start
not older than the grace window, and a non-empty channel list. -/
def admitsB (now : Int) (d : DateRec) (e : Event) : Bool :=
  match eventLoc d e with
  | none => false
  | some loc => !(decide (loc < now - 120)) && !(e.channels.isEmpty)

/-- Corrected local starts of the admitted events resolving to channel `c`,
in processing order. -/
def locsC (now : Int) (d : DateRec) (c : String)
    (l : List (String × Event)) : List Int :=
  l.filterMap (fun te =>
    if eventCid te.2 = c ∧ admitsB now d te.2 = true then eventLoc d te.2
    else none)

/-- The flattened processing order of a date section: categories in order,
each category's events sorted as the generator sorts them. -/
def dateSectionEvents (cats : Categories) : List (String × Event) :=
  (cats.map (fun cat => (sortEvts cat.2).map (fun e => (cat.1, e)))).flatten

/-- At most one well-formed (object) channel record. -/
def atMostOneDict (e : Event) : Prop :=
  (e.channels.filter (fun ch => ch.isDict)).length ≤ 1

/-- Relation between the last-end entry `b` before a processing unit, the
entry `b'` after it, and the channel's blocks `B` the unit emits: blocks
chain in emission order, run from no earlier than `b` to no later than
`b'`, and the entry only moves forward. -/
def segInv (b b' : Option Int) (B : List (Int × Int)) : Prop :=
  B.Chain' (fun x y => x.2 ≤ y.1) ∧
  (∀ p ∈ B, p.1 ≤ p.2) ∧
  (∀ bv, b = some bv → ∀ p ∈ B, bv ≤ p.1) ∧
  (∀ p ∈ B, ∃ v, b' = some v ∧ p.2 ≤ v) ∧
  (B = [] → b' = b) ∧
  (∀ bv, b = some bv → ∃ v, b' = some v ∧ bv ≤ v)


/-- Two admitted events sharing a title (hence a channel id) one hour
apart. -/
def exEventC1a : Event :=
  { time := some "14:00", title := some "Match X",
    channels := [{ channelName := some "Italia 1" }] }

def exEventC1b : Event :=
  { time := some "15:00", title := some "Match X",
    channels := [{ channelName := some "Italia 1" }] }

def exFeedC1 : RawFeed :=
  [("Sunday 12 Oct 2025", [("Football", [exEventC1a, exEventC1b])])]

/-- Two admitted events sharing a title, four hours apart. -/
def exEventC1c : Event :=
  { time := some "10:00", title := some "Match X",
    channels := [{ channelName := some "Italia 1" }] }

def exEventC1d : Event :=
  { time := some "14:00", title := some "Match X",
    channels := [{ channelName := some "Italia 1" }] }

def exCatsC1 : Categories := [("Football", [exEventC1c, exEventC1d])]


instance decAtMostOneDict (e : Event) : Decidable (atMostOneDict e) :=
  inferInstanceAs
    (Decidable ((e.channels.filter (fun ch => ch.isDict)).length ≤ 1))

/-- Executable form of the strict-gap condition on a channel's admitted
starts. -/
def gapChainB : List Int → Bool
  | [] => true
  | [_] => true
  | a :: b :: r => decide (a + 120 < b) && gapChainB (b :: r)

/-! ### Helper lemmas -/

theorem dropToGt_length_lt : ∀ l r, dropToGt l = some r → r.length < l.length := by
  intro l
  induction l with
  | nil => intro r h; simp [dropToGt] at h
  | cons c cs ih =>
    intro r h
    simp only [dropToGt] at h
    split at h
    · cases h; simp
    · split at h
      · cases h
      · exact Nat.lt_trans (ih r h) (by simp)

theorem reqSpan_length_lt : ∀ l r, reqSpan l = some r → r.length < l.length := by
  intro l r h
  rw [reqSpan.eq_def] at h
  split at h
  · have := dropToGt_length_lt _ _ h
    simp only [List.length_cons]
    omega
  · cases h

theorem spanMatch_length_lt : ∀ l r, spanMatch l = some r → r.length < l.length := by
  intro l r h
  rw [spanMatch.eq_def] at h
  split at h
  · have := reqSpan_length_lt _ _ h
    simp only [List.length_cons]; omega
  · have := reqSpan_length_lt _ _ h
    simp only [List.length_cons] at *; omega
  · cases h

theorem cleanTextFuel_eq :
    ∀ f l, l.length ≤ f → cleanTextFuel f l = cleanTextAux l := by
  intro f
  induction f using Nat.strong_induction_on with
  | _ f ih =>
    intro l hl
    match f, l with
    | 0, l =>
      have : l = [] := List.length_eq_zero.mp (Nat.le_zero.mp hl)
      subst this
      rfl
    | f + 1, [] =>
      simp [cleanTextFuel, cleanTextAux, spanMatch]
    | f + 1, c :: cs =>
      have hlen : (c :: cs).length = cs.length + 1 := rfl
      rw [cleanTextAux, hlen]
      show cleanTextFuel (f + 1) (c :: cs) = cleanTextFuel (cs.length + 1) (c :: cs)
      simp only [cleanTextFuel]
      cases hsp : spanMatch (c :: cs) with
      | some rest =>
        have hr : rest.length < cs.length + 1 := spanMatch_length_lt _ _ hsp
        have h1 : cleanTextFuel f rest = cleanTextAux rest := by
          apply ih f (Nat.lt_succ_self f)
          omega
        have h2 : cleanTextFuel cs.length rest = cleanTextAux rest := by
          apply ih cs.length (by omega)
          omega
        simp only [h1, h2]
      | none =>
        have h1 : cleanTextFuel f cs = cleanTextAux cs := by
          apply ih f (Nat.lt_succ_self f)
          omega
        have h2 : cleanTextFuel cs.length cs = cleanTextAux cs := by
          apply ih cs.length (by omega)
          omega
        simp only [h1, h2]

/-- The natural recursion equation of `cleanTextAux`. -/
theorem cleanTextAux_cons (c : Char) (cs : List Char) :
    cleanTextAux (c :: cs) =
      match spanMatch (c :: cs) with
      | some rest => cleanTextAux rest
      | none => c :: cleanTextAux cs := by
  show cleanTextFuel (cs.length + 1) (c :: cs) = _
  simp only [cleanTextFuel]
  cases hsp : spanMatch (c :: cs) with
  | some rest =>
    exact cleanTextFuel_eq cs.length rest
      (by have := spanMatch_length_lt _ _ hsp; simp at this ⊢; omega)
  | none => rw [cleanTextFuel_eq cs.length cs (Nat.le_refl _)]


theorem alnum_not_ws (c : Char) (h : isAsciiAlnum c = true) : isPyWs c = false := by
  by_contra hw
  rw [Bool.not_eq_false] at hw
  simp only [isPyWs, Bool.or_eq_true, decide_eq_true_eq] at hw
  rcases hw with ((((rfl | rfl) | rfl) | rfl) | rfl) | rfl <;> revert h <;> decide

/-- The whitespace-removal pass of `clean_channel_id` is absorbed by the
alphanumeric filter. -/
theorem ws_filter_absorbed (l : List Char) :
    (l.filter (fun c => !isPyWs c)).filter isAsciiAlnum = l.filter isAsciiAlnum := by
  rw [List.filter_filter]
  apply List.filter_congr
  intro c _
  cases h : isAsciiAlnum c with
  | true => simp [alnum_not_ws c h]
  | false => simp [h]

/-! ### Claims -/

/-- C4, counterexample: `clean_channel_id` does not lowercase.  On the title
`"Team A vs Team B"` it returns `"TeamAvsTeamB"`, not the `"teamavsteamb"`
the claim's reference definition (which lowercases) produces, so the claim's
equality fails at this input. -/
theorem c4_counterexample :
    cleanChannelId "Team A vs Team B" = "TeamAvsTeamB" ∧
    resolveClaimed "Team A vs Team B" = "teamavsteamb" ∧
    cleanChannelId "Team A vs Team B" ≠ resolveClaimed "Team A vs Team B" := by
  refine ⟨by decide, by decide, by decide⟩

/-- C4, amended: the channel identity resolver strips markup-like sequences,
removes every character that is not ASCII alphanumeric *preserving letter
case*, and maps an empty result to `"unknownchannel"`; it is total and never
returns the empty string, and `"Team A vs Team B"` resolves to
`"TeamAvsTeamB"`. -/
theorem c4_amended :
    (∀ s : String, cleanChannelId s = resolveAmended s ∧ cleanChannelId s ≠ "") ∧
    cleanChannelId "Team A vs Team B" = "TeamAvsTeamB" := by
  constructor
  · intro s
    have habs := ws_filter_absorbed (cleanTextAux s.data)
    constructor
    · simp only [cleanChannelId, resolveAmended, habs]
    · simp only [cleanChannelId, habs]
      split
      · decide
      · rename_i hne
        intro hcon
        apply hne
        have : (⟨(cleanTextAux s.data).filter isAsciiAlnum⟩ : String).data = "".data := by
          rw [hcon]
        simpa using this
  · decide

theorem dayStart_le (t : Int) : dayStart t ≤ t := by
  have h1 := Int.ediv_add_emod t 1440
  have h2 : 0 ≤ t % 1440 := Int.emod_nonneg t (by norm_num)
  unfold dayStart
  omega

theorem annStartCalc_le (p : Option Int) (loc : Int) : annStartCalc p loc ≤ loc := by
  cases p with
  | none => exact dayStart_le loc
  | some v =>
    simp only [annStartCalc]
    by_cases h : v < loc
    · rw [if_pos h]; omega
    · rw [if_neg h]; exact dayStart_le loc

/-- No `warnAnn` marker among the items. -/
def noWarnB (items : List Item) : Bool := items.all (fun i => !isWarnItem i)

theorem noWarnB_append (a b : List Item) :
    noWarnB (a ++ b) = (noWarnB a && noWarnB b) := by
  simp [noWarnB]

theorem stepChannel_noWarn (cn en ed cid : String) (loc : Int) (st : GenState)
    (ch : Chan) : noWarnB (stepChannel cn en ed cid loc st ch).2 = true := by
  have hle := annStartCalc_le (findVal cid st.lastEnd) loc
  unfold stepChannel
  split
  · rfl
  · rcases lt_or_eq_of_le hle with h | h <;>
      by_cases hmem : cid ∈ st.declared <;>
      simp [hmem, h, noWarnB, isWarnItem]

theorem processChans_noWarn (cn en ed cid : String) (loc : Int) :
    ∀ chans st, noWarnB (processChans cn en ed cid loc st chans).2 = true := by
  intro chans
  induction chans with
  | nil => intro st; rfl
  | cons ch rest ih =>
    intro st
    simp only [processChans, noWarnB_append, Bool.and_eq_true]
    exact ⟨stepChannel_noWarn cn en ed cid loc st ch, ih _⟩

theorem processEvent_noWarn (now : Int) (d : DateRec) (cn : String)
    (st : GenState) (e : Event) :
    noWarnB (processEvent now d cn st e).2 = true := by
  unfold processEvent
  split
  · rfl
  · dsimp only
    split_ifs <;> first | rfl | exact processChans_noWarn _ _ _ _ _ _ _

theorem processTagged_noWarn (now : Int) (d : DateRec) :
    ∀ l st, noWarnB (processTagged now d st l).2 = true := by
  intro l
  induction l with
  | nil => intro st; rfl
  | cons te rest ih =>
    intro st
    simp only [processTagged, noWarnB_append, Bool.and_eq_true]
    exact ⟨processEvent_noWarn _ _ _ _ _, ih _⟩

theorem processCats_noWarn (now : Int) (d : DateRec) :
    ∀ cats st, noWarnB (processCats now d st cats).2 = true := by
  intro cats
  induction cats with
  | nil => intro st; rfl
  | cons c rest ih =>
    intro st
    simp only [processCats, noWarnB_append, Bool.and_eq_true]
    exact ⟨processTagged_noWarn _ _ _ _, ih _⟩

theorem processDateSection_noWarn (now : Int) (declared : List String)
    (sec : String × Categories) :
    noWarnB (processDateSection now declared sec).2 = true := by
  unfold processDateSection
  split
  · rfl
  · split
    · rfl
    · exact processCats_noWarn _ _ _ _

theorem genAux_noWarn (now : Int) :
    ∀ feed declared, noWarnB (genAux now declared feed).2 = true := by
  intro feed
  induction feed with
  | nil => intro declared; rfl
  | cons sec rest ih =>
    intro declared
    simp only [genAux, noWarnB_append, Bool.and_eq_true]
    exact ⟨processDateSection_noWarn _ _ _, ih _⟩

/-- C10: every computed announcement interval satisfies start ≤ stop — the
previous end is taken only when strictly before the current start, and the
midnight fallback is never after a timestamp of its own day — so the
overlap-warning branch is unreachable: no run of the generator ever emits
the warning marker. -/
theorem c10_theorem :
    (∀ p loc, annStartCalc p loc ≤ loc) ∧
    (∀ now feed, noWarnB (generateEpgXml now feed) = true) := by
  exact ⟨annStartCalc_le, fun now feed => genAux_noWarn now feed []⟩

theorem stepChannel_ne_nil (cn en ed cid : String) (loc : Int) (st : GenState)
    (ch : Chan) (hd : ch.isDict = true) :
    (stepChannel cn en ed cid loc st ch).2 ≠ [] := by
  unfold stepChannel
  rw [hd]
  simp

theorem processChans_ne_nil (cn en ed cid : String) (loc : Int) :
    ∀ chans st, chans.any (fun ch => ch.isDict) = true →
      (processChans cn en ed cid loc st chans).2 ≠ [] := by
  intro chans
  induction chans with
  | nil => intro st h; simp at h
  | cons ch rest ih =>
    intro st h
    simp only [processChans]
    rcases List.any_eq_true.mp h with ⟨c, hc, hdict⟩
    rcases List.mem_cons.mp hc with rfl | hmem
    · have := stepChannel_ne_nil cn en ed cid loc st c hdict
      simp [List.append_eq_nil]
      intro hcon
      exact absurd hcon this
    · by_cases hch : ch.isDict = true
      · have := stepChannel_ne_nil cn en ed cid loc st ch hch
        simp [List.append_eq_nil]
        intro hcon
        exact absurd hcon this
      · have hany : rest.any (fun ch => ch.isDict) = true :=
          List.any_eq_true.mpr ⟨c, hmem, hdict⟩
        have := ih (stepChannel cn en ed cid loc st ch).1 hany
        simp [List.append_eq_nil]
        intro _ hcon
        exact absurd hcon this

/-- C7: for an event whose time parses, admission by the trailing grace
window is boundary inclusive — an offset-corrected start more than two hours
before `now` is skipped (no state change, no emission), while a start equal
to `now - 2h`, or any future start, is processed and (given a well-formed
channel entry) emits programme output. -/
theorem c7_theorem (now : Int) (d : DateRec) (cn : String) (st : GenState)
    (e : Event) (t : Nat) (loc : Int)
    (hpt : parseTimeHM (e.time.getD "00:00") = some t)
    (hloc : loc = (toDays d : Int) * 1440 + (t : Int) + 120) :
    (loc < now - 120 → processEvent now d cn st e = (st, [])) ∧
    (loc = now - 120 → e.channels.any (fun ch => ch.isDict) = true →
      (processEvent now d cn st e).2 ≠ []) ∧
    (now ≤ loc → e.channels.any (fun ch => ch.isDict) = true →
      (processEvent now d cn st e).2 ≠ []) := by
  subst hloc
  have hred : processEvent now d cn st e =
      (let eventName := cleanText (e.title.getD "Evento Sconosciuto")
       let eventDesc := e.description.getD "Trasmesso in diretta."
       let channelId := cleanChannelId eventName
       let loc : Int := (toDays d : Int) * 1440 + (t : Int) + 120
       if loc < now - 120 then (st, [])
       else if e.channels.isEmpty then (st, [])
       else processChans cn eventName eventDesc channelId loc st e.channels) := by
    unfold processEvent
    rw [hpt]
  refine ⟨fun hstale => ?_, fun hb hany => ?_, fun hfut hany => ?_⟩
  · rw [hred]
    dsimp only
    rw [if_pos hstale]
  · have hne : ¬ e.channels.isEmpty = true := by
      rcases List.any_eq_true.mp hany with ⟨c, hc, _⟩
      simp [List.isEmpty_iff]
      exact List.ne_nil_of_mem hc
    rw [hred]
    dsimp only
    rw [if_neg (by omega), if_neg hne]
    exact processChans_ne_nil _ _ _ _ _ _ _ hany
  · have hne : ¬ e.channels.isEmpty = true := by
      rcases List.any_eq_true.mp hany with ⟨c, hc, _⟩
      simp [List.isEmpty_iff]
      exact List.ne_nil_of_mem hc
    rw [hred]
    dsimp only
    rw [if_neg (by omega), if_neg hne]
    exact processChans_ne_nil _ _ _ _ _ _ _ hany

/-- Witness for C7 at concrete inputs: an event at 12:00 UTC (14:00 local) on
2025-10-12 is dropped when `now` is 16:01 local, and emits output when `now`
is exactly 16:00 local (the boundary). -/
theorem c7_witness :
    processEvent ((toDays ⟨2025, 10, 12⟩ : Int) * 1440 + 1321) ⟨2025, 10, 12⟩
        "Football" ⟨[], []⟩ exEvent = (⟨[], []⟩, []) ∧
    (processEvent ((toDays ⟨2025, 10, 12⟩ : Int) * 1440 + 1320) ⟨2025, 10, 12⟩
        "Football" ⟨[], []⟩ exEvent).2 ≠ [] := by
  constructor
  · exact (c7_theorem _ ⟨2025, 10, 12⟩ "Football" ⟨[], []⟩ exEvent 1080 _
      (by decide) rfl).1 (by decide)
  · exact (c7_theorem _ ⟨2025, 10, 12⟩ "Football" ⟨[], []⟩ exEvent 1080 _
      (by decide) rfl).2.1 (by decide) (by decide)

/-- C6, counterexample: on an empty feed the admitted set is empty and
`main_epg_generator` returns `False` without generating or writing any
document — no root-wrapper-only document is produced. -/
theorem c6_counterexample : mainEpgGenerator [] 0 = (false, none) := rfl

/-- C6, amended: when the admitted (filtered) set is empty the run aborts
with a failure result and writes nothing; only when it is non-empty is a
document generated and written.  (Generation over an empty feed would yield
the bare root wrapper, i.e. no items, but that path is never reached.) -/
theorem c6_amended :
    (∀ feed now, load_json_for_epg feed = [] →
      mainEpgGenerator feed now = (false, none)) ∧
    (∀ feed now, load_json_for_epg feed ≠ [] →
      mainEpgGenerator feed now =
        (true, some (generateEpgXml now (load_json_for_epg feed)))) ∧
    (∀ now : Int, generateEpgXml now [] = []) := by
  refine ⟨fun feed now h => ?_, fun feed now h => ?_, fun _ => rfl⟩
  · unfold mainEpgGenerator
    rw [if_pos (List.isEmpty_iff.mpr h)]
  · unfold mainEpgGenerator
    rw [if_neg (fun hcon => h (List.isEmpty_iff.mp hcon))]

/-- Witness for C6 at a concrete non-empty feed. -/
theorem c6_witness :
    mainEpgGenerator exFeedC6 0 =
      (true, some (generateEpgXml 0 (load_json_for_epg exFeedC6))) :=
  c6_amended.2.1 exFeedC6 0 (by decide)

/-- C9, counterexample: the merger drops the `channel` node of the `it.xml`
fragment — only its `programme` node is appended (with its channel attribute
normalized), refuting "every channel node ... of that fragment is appended
... no node kind is dropped for any fragment". -/
theorem c9_counterexample :
    mergeEpg [] false none
        (some [{ kind := .channel, idAttr := some "Rai 1" },
               { kind := .programme, channelAttr := some "Rai 1" }]) =
      [{ kind := .programme, channelAttr := some "rai1" }] := by
  decide

theorem cleanChannelNode_kind (n : Node) : (cleanChannelNode n).kind = n.kind := by
  unfold cleanChannelNode
  split <;> rfl

theorem cleanProgNode_kind (n : Node) : (cleanProgNode n).kind = n.kind := by
  unfold cleanProgNode
  split <;> rfl

theorem foldl_append_flatten (l : List (List Node)) :
    ∀ a, l.foldl (fun acc fr => acc ++ fr) a = a ++ l.flatten := by
  induction l with
  | nil => intro a; simp
  | cons x xs ih => intro a; simp [ih, List.append_assoc]

/-- C9, amended: child nodes of the gzip-list fragments are appended whole
and in order, but from the local events fragment (behind the `CANALI_DADDY`
flag) and from the `it.xml` fragment only `programme` nodes are appended —
their `channel` nodes are dropped — and all appended channel/programme nodes
then get their channel-id attribute normalized.  In particular every channel
node of the output comes from a gzip-list fragment. -/
theorem c9_amended (gz : List (List Node)) (daddy : Bool)
    (ev it : Option (List Node)) :
    mergeEpg gz daddy ev it =
      ((gz.flatten ++ (if daddy then progsOfOpt ev else []) ++ progsOfOpt it).map
        (fun n => cleanProgNode (cleanChannelNode n))) ∧
    (mergeEpg gz daddy ev it).filter (fun n => n.kind == NodeKind.channel) =
      (gz.flatten.filter (fun n => n.kind == NodeKind.channel)).map
        (fun n => cleanProgNode (cleanChannelNode n)) := by
  have hmain : mergeEpg gz daddy ev it =
      ((gz.flatten ++ (if daddy then progsOfOpt ev else []) ++ progsOfOpt it).map
        (fun n => cleanProgNode (cleanChannelNode n))) := by
    unfold mergeEpg
    rw [foldl_append_flatten gz []]
    simp only [List.nil_append, List.map_map]
    cases daddy <;> cases ev <;> cases it <;>
      simp [progsOfOpt, Function.comp_def]
  refine ⟨hmain, ?_⟩
  rw [hmain]
  rw [List.filter_map]
  have hcomp : ∀ l : List Node,
      l.filter ((fun n => n.kind == NodeKind.channel) ∘
        (fun n => cleanProgNode (cleanChannelNode n))) =
      l.filter (fun n => n.kind == NodeKind.channel) := by
    intro l
    apply List.filter_congr
    intro n _
    simp [Function.comp, cleanProgNode_kind, cleanChannelNode_kind]
  rw [hcomp]
  congr 1
  rw [List.filter_append, List.filter_append]
  have hprogs : ∀ o : Option (List Node),
      (progsOfOpt o).filter (fun n => n.kind == NodeKind.channel) = [] := by
    intro o
    cases o with
    | none => rfl
    | some f =>
      simp only [progsOfOpt, List.filter_filter]
      apply List.filter_eq_nil_iff.mpr
      intro n _
      simp [isProgrammeNode]
      intro h
      simp [h]
  rw [hprogs it]
  cases daddy
  · simp
  · simp [hprogs ev]

/-- Date sections whose parsed date is before the run's current local date
are skipped whole: the declared-channel registry is untouched and nothing is
emitted. -/
theorem processDateSection_skip_past (now : Int) (declared : List String)
    (key : String) (cats : Categories) (d : DateRec)
    (hp : parseDateKey key = some d) (hlt : (toDays d : Int) < now / 1440) :
    processDateSection now declared (key, cats) = (declared, []) := by
  unfold processDateSection
  simp only [hp]
  rw [if_pos hlt]

/-- C2, counterexample: an event dated yesterday at 03:59 is *not* admitted.
With `now` at local noon of 2025-10-12, the feed dated 2025-10-11 produces no
output at all through the generator (its date precedes today), and the
world-variant loader additionally drops the event because its wall-clock
time lies in 00:00-04:00 inclusive. -/
theorem c2_counterexample :
    generateEpgXml (exBase + 720) (load_json_for_epg exFeedC2) = [] ∧
    load_json_for_epg_world exFeedC2 = [] := by
  exact ⟨by decide, by decide⟩

/-- C2, amended: events dated yesterday are never admitted.  The generator
skips every date section whose parsed date is exactly one day before the
run's current local date (as it skips all past dates), and — independently —
the world-variant loader drops every event whose original wall-clock time
lies within 00:00-04:00 inclusive, on every date. -/
theorem c2_amended :
    (∀ (now : Int) (declared : List String) (key : String) (cats : Categories)
        (d : DateRec), parseDateKey key = some d →
        (toDays d : Int) = now / 1440 - 1 →
        processDateSection now declared (key, cats) = (declared, [])) ∧
    (∀ (e : Event) (t : Nat), parseTimeHM (e.time.getD "00:00") = some t →
        t ≤ 240 → filterEventWorld e = none) := by
  constructor
  · intro now declared key cats d hp hd
    exact processDateSection_skip_past now declared key cats d hp (by omega)
  · intro e t hpt ht
    unfold filterEventWorld
    rw [hpt]
    simp only
    rw [if_pos ht]

/-- Witness for C2 at concrete inputs: the yesterday-dated section of
`exFeedC2` is skipped when `now` is noon of 2025-10-12, and its 03:59 event
is dropped by the world loader. -/
theorem c2_witness :
    processDateSection (exBase + 720) [] ("Saturday 11 Oct 2025",
        [("Football", [exEventC2])]) = ([], []) ∧
    filterEventWorld exEventC2 = none := by
  constructor
  · exact c2_amended.1 (exBase + 720) [] "Saturday 11 Oct 2025"
      [("Football", [exEventC2])] ⟨2025, 10, 11⟩ (by decide) (by decide)
  · exact c2_amended.2 exEventC2 239 (by decide) (by decide)

/-- C3, counterexample: a tomorrow-dated event is admitted, not excluded.
With `now` at local noon of 2025-10-12, the feed dated 2025-10-13 emits
programme blocks for its channel. -/
theorem c3_counterexample :
    blocksFor "FutureCup" (generateEpgXml (exBase + 720)
      (load_json_for_epg exFeedC3)) ≠ [] := by
  decide

/-- C3, amended: a date section is eligible exactly when its parsed calendar
date is today or later — dates before today (including yesterday) are
excluded before any further filtering, while today and every future date
(such as tomorrow) are processed. -/
theorem c3_amended :
    (∀ (now : Int) (declared : List String) (key : String) (cats : Categories)
        (d : DateRec), parseDateKey key = some d →
        (toDays d : Int) < now / 1440 →
        processDateSection now declared (key, cats) = (declared, [])) ∧
    (∀ (now : Int) (declared : List String) (key : String) (cats : Categories)
        (d : DateRec), parseDateKey key = some d →
        now / 1440 ≤ (toDays d : Int) →
        processDateSection now declared (key, cats) =
          (let p := processCats now d ⟨declared, []⟩ cats
           (p.1.declared, p.2))) ∧
    generateEpgXml (exBase + 720) (load_json_for_epg exFeedC3) ≠ [] := by
  refine ⟨processDateSection_skip_past, fun now declared key cats d hp hge => ?_, ?_⟩
  · unfold processDateSection
    simp only [hp]
    rw [if_neg (by omega)]
  · decide

/-- Witness for C3 at concrete inputs: a section dated 2025-10-10 is skipped
and a section dated 2025-10-13 is processed, when `now` is noon of
2025-10-12. -/
theorem c3_witness :
    processDateSection (exBase + 720) [] ("Friday 10 Oct 2025",
        [("Football", [exEventC3])]) = ([], []) ∧
    processDateSection (exBase + 720) [] ("Monday 13 Oct 2025",
        [("Football", [exEventC3])]) =
      (let p := processCats (exBase + 720) ⟨2025, 10, 13⟩ ⟨[], []⟩
          [("Football", [exEventC3])]
       (p.1.declared, p.2)) := by
  constructor
  · exact c3_amended.1 (exBase + 720) [] "Friday 10 Oct 2025"
      [("Football", [exEventC3])] ⟨2025, 10, 10⟩ (by decide) (by decide)
  · exact c3_amended.2.1 (exBase + 720) [] "Monday 13 Oct 2025"
      [("Football", [exEventC3])] ⟨2025, 10, 13⟩ (by decide) (by decide)

theorem stepChannel_cat (cn cn' en ed cid : String) (loc : Int) (st : GenState)
    (ch : Chan) :
    (stepChannel cn en ed cid loc st ch).1 =
      (stepChannel cn' en ed cid loc st ch).1 ∧
    (stepChannel cn en ed cid loc st ch).2.map stripCat =
      (stepChannel cn' en ed cid loc st ch).2.map stripCat := by
  unfold stepChannel
  by_cases hd : ch.isDict
  · refine ⟨?_, ?_⟩
    · simp only [hd, Bool.not_true, Bool.false_eq_true, if_false]
    · simp only [hd, Bool.not_true, Bool.false_eq_true, if_false]
      simp [stripCat]
  · simp [hd]

theorem processChans_cat (cn cn' en ed cid : String) (loc : Int) :
    ∀ chans st,
      (processChans cn en ed cid loc st chans).1 =
        (processChans cn' en ed cid loc st chans).1 ∧
      (processChans cn en ed cid loc st chans).2.map stripCat =
        (processChans cn' en ed cid loc st chans).2.map stripCat := by
  intro chans
  induction chans with
  | nil => intro st; exact ⟨rfl, rfl⟩
  | cons ch rest ih =>
    intro st
    have h1 := stepChannel_cat cn cn' en ed cid loc st ch
    simp only [processChans]
    rw [← h1.1]
    exact ⟨(ih _).1, by
      rw [List.map_append, List.map_append, h1.2, (ih _).2]⟩

theorem processEvent_cat (now : Int) (d : DateRec) (cn cn' : String)
    (st : GenState) (e : Event) :
    (processEvent now d cn st e).1 = (processEvent now d cn' st e).1 ∧
    (processEvent now d cn st e).2.map stripCat =
      (processEvent now d cn' st e).2.map stripCat := by
  unfold processEvent
  cases hpt : parseTimeHM (e.time.getD "00:00") with
  | none => exact ⟨rfl, rfl⟩
  | some t =>
    dsimp only
    split_ifs with h1 h2
    · exact ⟨rfl, rfl⟩
    · exact ⟨rfl, rfl⟩
    · exact processChans_cat cn cn' _ _ _ _ _ _

theorem processTagged_cat (now : Int) (d : DateRec) (cn cn' : String) :
    ∀ (l : List Event) st,
      (processTagged now d st (l.map (fun e => (cn, e)))).1 =
        (processTagged now d st (l.map (fun e => (cn', e)))).1 ∧
      (processTagged now d st (l.map (fun e => (cn, e)))).2.map stripCat =
        (processTagged now d st (l.map (fun e => (cn', e)))).2.map stripCat := by
  intro l
  induction l with
  | nil => intro st; exact ⟨rfl, rfl⟩
  | cons e rest ih =>
    intro st
    have h1 := processEvent_cat now d cn cn' st e
    simp only [List.map_cons, processTagged]
    rw [← h1.1]
    exact ⟨(ih _).1, by
      rw [List.map_append, List.map_append, h1.2, (ih _).2]⟩

/-- C5, counterexample: an otherwise-admissible event under the category
"TV Shows" is fully processed by the EPG synthesizer — it produces a channel
declaration and programme blocks, refuting the claimed exclusion. -/
theorem c5_counterexample :
    blocksFor "SomeShow" (generateEpgXml (exBase + 720)
      (load_json_for_epg exFeedC5)) ≠ [] ∧
    declsFor "SomeShow" (generateEpgXml (exBase + 720)
      (load_json_for_epg exFeedC5)) = 1 := by
  exact ⟨by decide, by decide⟩

/-- C5, amended: the EPG synthesis path applies no category-based exclusion.
A category named "TV Shows" is processed exactly like a category of any
other name: the resulting state is identical and the emitted items agree
once the category text of main programme blocks is erased.  (The
"TV Shows" exclusion exists only in the separate M3U playlist generators,
outside the guide synthesizer.) -/
theorem c5_amended :
    ∀ (now : Int) (d : DateRec) (st : GenState) (n : String)
      (evts : List Event),
      (processCat now d st ("TV Shows", evts)).1 =
        (processCat now d st (n, evts)).1 ∧
      (processCat now d st ("TV Shows", evts)).2.map stripCat =
        (processCat now d st (n, evts)).2.map stripCat := by
  intro now d st n evts
  unfold processCat
  exact processTagged_cat now d "TV Shows" n (sortEvts evts) st

theorem declsFor_append (c : String) (a b : List Item) :
    declsFor c (a ++ b) = declsFor c a + declsFor c b := by
  simp [declsFor, List.filter_append]

theorem blocksFor_append (c : String) (a b : List Item) :
    blocksFor c (a ++ b) = blocksFor c a ++ blocksFor c b := by
  simp [blocksFor]

theorem declInv_nil (c : String) (d : List String) : declInv c d d [] := by
  refine ⟨fun _ => rfl, by simp [declsFor], by simp [declsFor], ?_⟩
  intro pre suf hps hb
  have : pre = [] := by
    cases pre with
    | nil => rfl
    | cons x xs => simp at hps
  subst this
  simp [blocksFor] at hb

theorem declInv_append {c : String} {d0 d1 d2 : List String} {i1 i2 : List Item}
    (h1 : declInv c d0 d1 i1) (h2 : declInv c d1 d2 i2) :
    declInv c d0 d2 (i1 ++ i2) := by
  obtain ⟨h10, h11, h12, h13⟩ := h1
  obtain ⟨h20, h21, h22, h23⟩ := h2
  refine ⟨?_, ?_, ?_, ?_⟩
  · intro hc
    have e1 := h10 hc
    have e2 := h20 (h12.mpr (Or.inl hc))
    rw [declsFor_append, e1, e2]
  · rw [declsFor_append]
    by_cases hd1 : 1 ≤ declsFor c i1
    · have := h20 (h12.mpr (Or.inr hd1))
      omega
    · omega
  · rw [declsFor_append, h22, h12]
    constructor
    · rintro ((hc | hd) | hd)
      · exact Or.inl hc
      · exact Or.inr (by omega)
      · exact Or.inr (by omega)
    · rintro (hc | hd)
      · exact Or.inl (Or.inl hc)
      · by_cases hd1 : 1 ≤ declsFor c i1
        · exact Or.inl (Or.inr hd1)
        · exact Or.inr (by omega)
  · intro pre suf hps hb
    rcases List.append_eq_append_iff.mp hps.symm with ⟨a', ha1, ha2⟩ | ⟨c', hc1, hc2⟩
    · exact h13 pre a' ha1 hb
    · subst hc1
      rw [blocksFor_append] at hb
      by_cases hb1 : blocksFor c i1 = []
      · rw [hb1] at hb
        simp at hb
        rcases h23 c' suf hc2 hb with hc | hd
        · rcases h12.mp hc with hc0 | hd1
          · exact Or.inl hc0
          · right
            rw [declsFor_append]
            omega
        · right
          rw [declsFor_append]
          omega
      · rcases h13 i1 [] (by simp) hb1 with hc0 | hd1
        · exact Or.inl hc0
        · right
          rw [declsFor_append]
          omega

theorem stepChannel_declInv (cn en ed cid c : String) (loc : Int)
    (st : GenState) (ch : Chan) :
    declInv c st.declared (stepChannel cn en ed cid loc st ch).1.declared
      (stepChannel cn en ed cid loc st ch).2 := by
  unfold stepChannel
  by_cases hd : ch.isDict
  · simp only [hd, Bool.not_true, Bool.false_eq_true, if_false]
    by_cases hc : cid = c
    · subst hc
      by_cases hmem : cid ∈ st.declared
      · simp only [hmem, if_true]
        refine ⟨fun _ => ?_, ?_, ?_, ?_⟩
        · split_ifs <;> simp [declsFor, isDeclFor]
        · split_ifs <;> simp [declsFor, isDeclFor]
        · simp [hmem]
        · intro pre suf _ _
          exact Or.inl hmem
      · simp only [hmem, if_false]
        have hdecl : ∀ annItems : List Item,
            declsFor cid annItems = 0 →
            declsFor cid ([Item.channelTag cid en] ++ annItems ++
              [Item.mainProg loc (loc + 120) cid ed en (cleanText cn)]) = 1 := by
          intro annItems hz
          rw [declsFor_append, declsFor_append, hz]
          simp [declsFor, isDeclFor]
        refine ⟨fun hc => absurd hc hmem, ?_, ?_, ?_⟩
        · split_ifs <;>
            first
              | (rw [hdecl _ (by simp [declsFor, isDeclFor])])
        · constructor
          · intro _
            right
            split_ifs <;> rw [hdecl _ (by simp [declsFor, isDeclFor])]
          · intro _
            simp
        · intro pre suf hps hb
          right
          cases pre with
          | nil => simp [blocksFor] at hb
          | cons x xs =>
            have hx : x = Item.channelTag cid en := by
              split_ifs at hps <;> exact (by simpa using congrArg (fun l => l.headD x) hps : Item.channelTag cid en = x).symm
            subst hx
            simp [declsFor, isDeclFor]
    · have hitems : declsFor c
          ((if cid ∈ st.declared then ([] : List Item)
            else [Item.channelTag cid en]) ++
           (if annStartCalc (findVal cid st.lastEnd) loc < loc then
              [Item.ann (annStartCalc (findVal cid st.lastEnd) loc) loc cid
                ("Inizia alle " ++ fmtHM loc ++ ".") (en ++ ".")]
            else if annStartCalc (findVal cid st.lastEnd) loc = loc then []
            else [Item.warnAnn cid]) ++
           [Item.mainProg loc (loc + 120) cid ed en (cleanText cn)]) = 0 := by
        split_ifs <;> simp [declsFor, isDeclFor, hc]
      have hblocks : blocksFor c
          ((if cid ∈ st.declared then ([] : List Item)
            else [Item.channelTag cid en]) ++
           (if annStartCalc (findVal cid st.lastEnd) loc < loc then
              [Item.ann (annStartCalc (findVal cid st.lastEnd) loc) loc cid
                ("Inizia alle " ++ fmtHM loc ++ ".") (en ++ ".")]
            else if annStartCalc (findVal cid st.lastEnd) loc = loc then []
            else [Item.warnAnn cid]) ++
           [Item.mainProg loc (loc + 120) cid ed en (cleanText cn)]) = [] := by
        split_ifs <;> simp [blocksFor, blockOfItem, hc]
      refine ⟨fun _ => hitems, by rw [hitems]; omega, ?_, ?_⟩
      · rw [hitems]
        constructor
        · intro hmem
          left
          split_ifs at hmem with h
          · exact hmem
          · rcases List.mem_cons.mp hmem with heq | hmem
            · exact absurd heq.symm hc
            · exact hmem
        · rintro (hmem | h)
          · split_ifs
            · exact hmem
            · exact List.mem_cons_of_mem _ hmem
          · omega
      · intro pre suf hps hb
        exfalso
        apply hb
        have : blocksFor c (pre ++ suf) = [] := by rw [← hps]; exact hblocks
        rw [blocksFor_append] at this
        exact List.append_eq_nil.mp this |>.1
  · simp only [hd]
    simp only [Bool.not_false, if_true]
    exact declInv_nil c st.declared

theorem processChans_declInv (cn en ed cid c : String) (loc : Int) :
    ∀ chans st,
      declInv c st.declared (processChans cn en ed cid loc st chans).1.declared
        (processChans cn en ed cid loc st chans).2 := by
  intro chans
  induction chans with
  | nil => intro st; exact declInv_nil c st.declared
  | cons ch rest ih =>
    intro st
    simp only [processChans]
    exact declInv_append (stepChannel_declInv cn en ed cid c loc st ch) (ih _)

theorem processEvent_declInv (now : Int) (d : DateRec) (cn c : String)
    (st : GenState) (e : Event) :
    declInv c st.declared (processEvent now d cn st e).1.declared
      (processEvent now d cn st e).2 := by
  unfold processEvent
  cases hpt : parseTimeHM (e.time.getD "00:00") with
  | none => exact declInv_nil c st.declared
  | some t =>
    dsimp only
    split_ifs
    · exact declInv_nil c st.declared
    · exact declInv_nil c st.declared
    · exact processChans_declInv _ _ _ _ c _ _ st

theorem processTagged_declInv (now : Int) (d : DateRec) (c : String) :
    ∀ l st,
      declInv c st.declared (processTagged now d st l).1.declared
        (processTagged now d st l).2 := by
  intro l
  induction l with
  | nil => intro st; exact declInv_nil c st.declared
  | cons te rest ih =>
    intro st
    simp only [processTagged]
    exact declInv_append (processEvent_declInv now d te.1 c st te.2) (ih _)

theorem processCats_declInv (now : Int) (d : DateRec) (c : String) :
    ∀ cats st,
      declInv c st.declared (processCats now d st cats).1.declared
        (processCats now d st cats).2 := by
  intro cats
  induction cats with
  | nil => intro st; exact declInv_nil c st.declared
  | cons cat rest ih =>
    intro st
    simp only [processCats]
    exact declInv_append (processTagged_declInv now d c _ st) (ih _)

theorem processDateSection_declInv (now : Int) (c : String)
    (declared : List String) (sec : String × Categories) :
    declInv c declared (processDateSection now declared sec).1
      (processDateSection now declared sec).2 := by
  unfold processDateSection
  cases hp : parseDateKey sec.1 with
  | none => exact declInv_nil c declared
  | some d =>
    dsimp only
    split_ifs
    · exact declInv_nil c declared
    · exact processCats_declInv now d c sec.2 ⟨declared, []⟩

theorem genAux_declInv (now : Int) (c : String) :
    ∀ feed declared,
      declInv c declared (genAux now declared feed).1
        (genAux now declared feed).2 := by
  intro feed
  induction feed with
  | nil => intro declared; exact declInv_nil c declared
  | cons sec rest ih =>
    intro declared
    simp only [genAux]
    exact declInv_append (processDateSection_declInv now c declared sec) (ih _)

/-- C8: in one synthesis run each channel id is declared at most once; a
channel id that has any programme block is declared exactly once; and in
every prefix of the emission the declaration precedes the first programme
block of that id (so the declaration is emitted the first time the id is
seen and never re-emitted). -/
theorem c8_theorem (feed : RawFeed) (now : Int) (c : String) :
    declsFor c (generateEpgXml now feed) ≤ 1 ∧
    (blocksFor c (generateEpgXml now feed) ≠ [] →
      declsFor c (generateEpgXml now feed) = 1) ∧
    (∀ pre suf, generateEpgXml now feed = pre ++ suf →
      blocksFor c pre ≠ [] → 1 ≤ declsFor c pre) := by
  obtain ⟨h0, h1, h2, h3⟩ := genAux_declInv now c feed []
  refine ⟨h1, fun hb => ?_, fun pre suf hps hb => ?_⟩
  · rcases h3 (generateEpgXml now feed) [] (by simp [generateEpgXml]) hb with hc | hd
    · simp at hc
    · have : declsFor c (generateEpgXml now feed) ≤ 1 := h1
      omega
  · rcases h3 pre suf hps hb with hc | hd
    · simp at hc
    · exact hd

/-- Witness for C8: the concrete one-event feed declares its channel exactly
once. -/
theorem c8_witness :
    declsFor "MatchX" (generateEpgXml (exBase + 720) exFeedC6) = 1 :=
  (c8_theorem exFeedC6 (exBase + 720) "MatchX").2.1 (by decide)

theorem segInv_refl (b : Option Int) : segInv b b [] := by
  refine ⟨List.chain'_nil, by simp, by simp, by simp, fun _ => rfl, ?_⟩
  intro bv hb
  exact ⟨bv, hb, le_refl bv⟩

theorem segInv_append {b b' b'' : Option Int} {B1 B2 : List (Int × Int)}
    (h1 : segInv b b' B1) (h2 : segInv b' b'' B2) :
    segInv b b'' (B1 ++ B2) := by
  obtain ⟨c1, s1, lo1, hi1, e1, m1⟩ := h1
  obtain ⟨c2, s2, lo2, hi2, e2, m2⟩ := h2
  refine ⟨?_, ?_, ?_, ?_, ?_, ?_⟩
  · rw [List.chain'_append]
    refine ⟨c1, c2, ?_⟩
    intro x hx y hy
    have hxm : x ∈ B1 := List.mem_of_mem_getLast? hx
    have hym : y ∈ B2 := List.mem_of_mem_head? hy
    obtain ⟨v, hb', hxv⟩ := hi1 x hxm
    have := lo2 v hb' y hym
    omega
  · intro p hp
    rcases List.mem_append.mp hp with h | h
    · exact s1 p h
    · exact s2 p h
  · intro bv hb p hp
    rcases List.mem_append.mp hp with h | h
    · exact lo1 bv hb p h
    · obtain ⟨v, hb', hbv⟩ := m1 bv hb
      have := lo2 v hb' p h
      omega
  · intro p hp
    rcases List.mem_append.mp hp with h | h
    · obtain ⟨v, hb', hpv⟩ := hi1 p h
      obtain ⟨w, hb'', hvw⟩ := m2 v hb'
      exact ⟨w, hb'', by omega⟩
    · exact hi2 p h
  · intro hB
    rcases List.append_eq_nil.mp hB with ⟨hB1, hB2⟩
    rw [e2 hB2, e1 hB1]
  · intro bv hb
    obtain ⟨v, hb', hbv⟩ := m1 bv hb
    obtain ⟨w, hb'', hvw⟩ := m2 v hb'
    exact ⟨w, hb'', by omega⟩

/-- A strict-gap chain puts its head strictly below every later element. -/
theorem chain_gap_head {x : Int} :
    ∀ {xs : List Int}, (x :: xs).Chain' (fun a b => a + 120 < b) →
      ∀ s ∈ xs, x + 120 < s := by
  intro xs
  induction xs generalizing x with
  | nil => intro _ s hs; simp at hs
  | cons y ys ih =>
    intro h s hs
    have hxy : x + 120 < y := (List.chain'_cons.mp h).1
    rcases List.mem_cons.mp hs with rfl | hs
    · exact hxy
    · have := ih (List.chain'_cons.mp h).2 s hs
      omega

theorem chainOkB_iff :
    ∀ l : List (Int × Int),
      chainOkB l = true ↔ l.Chain' (fun x y => x.2 ≤ y.1) := by
  intro l
  induction l with
  | nil => simp [chainOkB]
  | cons a t ih =>
    cases t with
    | nil => simp [chainOkB]
    | cons b r =>
      rw [chainOkB, List.chain'_cons, Bool.and_eq_true, decide_eq_true_iff, ih]

theorem gapChainB_iff :
    ∀ l : List Int, gapChainB l = true ↔ l.Chain' (fun a b => a + 120 < b) := by
  intro l
  induction l with
  | nil => simp [gapChainB]
  | cons a t ih =>
    cases t with
    | nil => simp [gapChainB]
    | cons b r =>
      rw [gapChainB, List.chain'_cons, Bool.and_eq_true, decide_eq_true_iff, ih]

theorem isortBy_eq_self {α : Type} (le : α → α → Bool) :
    ∀ l : List α, l.Chain' (fun a b => le a b = true) → isortBy le l = l := by
  intro l
  induction l with
  | nil => intro _; rfl
  | cons x xs ih =>
    intro h
    have hxs := (List.chain'_cons'.mp h).2
    show insertLe le x (isortBy le xs) = x :: xs
    rw [ih hxs]
    cases xs with
    | nil => rfl
    | cons y ys =>
      have hxy : le x y = true := (List.chain'_cons.mp h).1
      simp [insertLe, hxy]

/-- From block chaining and per-block sanity, starts are chain-ordered. -/
theorem chain_start_le :
    ∀ B : List (Int × Int), B.Chain' (fun x y => x.2 ≤ y.1) →
      (∀ p ∈ B, p.1 ≤ p.2) →
      B.Chain' (fun x y => decide (x.1 ≤ y.1) = true) := by
  intro B
  induction B with
  | nil => intro _ _; exact List.chain'_nil
  | cons a t ih =>
    intro hc hs
    cases t with
    | nil => simp
    | cons b r =>
      rw [List.chain'_cons] at hc ⊢
      refine ⟨?_, ih hc.2 (fun p hp => hs p (List.mem_cons_of_mem a hp))⟩
      have h1 := hs a (List.mem_cons_self a _)
      have h2 := hc.1
      simp only [decide_eq_true_iff]
      omega

theorem processTagged_append (now : Int) (d : DateRec) :
    ∀ (l1 l2 : List (String × Event)) (st : GenState),
      processTagged now d st (l1 ++ l2) =
        ((processTagged now d (processTagged now d st l1).1 l2).1,
         (processTagged now d st l1).2 ++
           (processTagged now d (processTagged now d st l1).1 l2).2) := by
  intro l1
  induction l1 with
  | nil => intro l2 st; simp [processTagged]
  | cons te rest ih =>
    intro l2 st
    simp only [List.cons_append, processTagged]
    simp only [List.append_eq]
    rw [ih]
    simp [List.append_assoc]

theorem processCats_eq_tagged (now : Int) (d : DateRec) :
    ∀ (cats : Categories) (st : GenState),
      processCats now d st cats =
        processTagged now d st (dateSectionEvents cats) := by
  intro cats
  induction cats with
  | nil => intro st; rfl
  | cons cat rest ih =>
    intro st
    simp only [processCats, processCat, dateSectionEvents, List.map_cons,
      List.flatten_cons]
    rw [processTagged_append]
    rw [ih]
    rfl

theorem stepChannel_other (cn en ed cid c : String) (loc : Int) (st : GenState)
    (ch : Chan) (hc : cid ≠ c) :
    findVal c (stepChannel cn en ed cid loc st ch).1.lastEnd =
      findVal c st.lastEnd ∧
    blocksFor c (stepChannel cn en ed cid loc st ch).2 = [] := by
  unfold stepChannel
  by_cases hd : ch.isDict
  · simp only [hd, Bool.not_true, Bool.false_eq_true, if_false]
    constructor
    · simp [findVal, hc]
    · split_ifs <;> simp [blocksFor, blockOfItem, hc]
  · simp [hd, blocksFor]

theorem processChans_other (cn en ed cid c : String) (loc : Int) (hc : cid ≠ c) :
    ∀ chans st,
      findVal c (processChans cn en ed cid loc st chans).1.lastEnd =
        findVal c st.lastEnd ∧
      blocksFor c (processChans cn en ed cid loc st chans).2 = [] := by
  intro chans
  induction chans with
  | nil => intro st; exact ⟨rfl, rfl⟩
  | cons ch rest ih =>
    intro st
    simp only [processChans]
    have h1 := stepChannel_other cn en ed cid c loc st ch hc
    have h2 := ih (stepChannel cn en ed cid loc st ch).1
    refine ⟨by rw [h2.1, h1.1], ?_⟩
    rw [blocksFor_append, h1.2, h2.2]
    rfl

theorem processEvent_other (now : Int) (d : DateRec) (n c : String)
    (st : GenState) (e : Event) (hc : eventCid e ≠ c) :
    findVal c (processEvent now d n st e).1.lastEnd = findVal c st.lastEnd ∧
    blocksFor c (processEvent now d n st e).2 = [] := by
  unfold processEvent
  cases hpt : parseTimeHM (e.time.getD "00:00") with
  | none => exact ⟨rfl, rfl⟩
  | some t =>
    dsimp only
    split_ifs
    · exact ⟨rfl, rfl⟩
    · exact ⟨rfl, rfl⟩
    · exact processChans_other _ _ _ _ c _ hc e.channels st

theorem processEvent_skip (now : Int) (d : DateRec) (n : String)
    (st : GenState) (e : Event) (hadm : admitsB now d e = false) :
    processEvent now d n st e = (st, []) := by
  unfold admitsB at hadm
  unfold processEvent
  cases hpt : parseTimeHM (e.time.getD "00:00") with
  | none => rfl
  | some t =>
    rw [eventLoc, hpt] at hadm
    try simp only [Option.map_some'] at hadm
    dsimp only
    by_cases hstale : ((toDays d : Int) * 1440 + (t : Int) + 120 < now - 120)
    · rw [if_pos hstale]
    · rw [if_neg hstale]
      have hd1 : decide ((toDays d : Int) * 1440 + (t : Int) + 120 < now - 120)
          = false := by simp [hstale]
      rw [hd1] at hadm
      simp only [Bool.not_false, Bool.true_and] at hadm
      have hemp : e.channels.isEmpty = true := by
        cases hE : e.channels.isEmpty
        · rw [hE] at hadm; simp at hadm
        · rfl
      rw [if_pos hemp]

theorem processEvent_eq_chans (now : Int) (d : DateRec) (n : String)
    (st : GenState) (e : Event) (t : Nat)
    (hpt : parseTimeHM (e.time.getD "00:00") = some t)
    (hstale : ¬((toDays d : Int) * 1440 + (t : Int) + 120 < now - 120))
    (hne : e.channels ≠ []) :
    processEvent now d n st e =
      processChans n (cleanText (e.title.getD "Evento Sconosciuto"))
        (e.description.getD "Trasmesso in diretta.")
        (eventCid e) ((toDays d : Int) * 1440 + (t : Int) + 120) st
        e.channels := by
  unfold processEvent
  rw [hpt]
  dsimp only
  rw [if_neg hstale, if_neg (by simpa [List.isEmpty_iff] using hne)]
  rfl

theorem processChans_nodict (cn en ed cid : String) (loc : Int) :
    ∀ (chans : List Chan) (st : GenState),
      (∀ ch ∈ chans, ch.isDict = false) →
      processChans cn en ed cid loc st chans = (st, []) := by
  intro chans
  induction chans with
  | nil => intro st _; rfl
  | cons ch rest ih =>
    intro st hall
    have hch : ch.isDict = false := hall ch (List.mem_cons_self ch rest)
    have hstep : stepChannel cn en ed cid loc st ch = (st, []) := by
      simp [stepChannel, hch]
    simp only [processChans, hstep]
    rw [ih st (fun x hx => hall x (List.mem_cons_of_mem ch hx))]
    rfl

theorem processChans_skip_nodict (cn en ed cid : String) (loc : Int) :
    ∀ (l1 rest : List Chan) (st : GenState),
      (∀ ch ∈ l1, ch.isDict = false) →
      processChans cn en ed cid loc st (l1 ++ rest) =
        processChans cn en ed cid loc st rest := by
  intro l1
  induction l1 with
  | nil => intro rest st _; rfl
  | cons ch l1' ih =>
    intro rest st hall
    have hch : ch.isDict = false := hall ch (List.mem_cons_self ch l1')
    have hstep : stepChannel cn en ed cid loc st ch = (st, []) := by
      simp [stepChannel, hch]
    simp only [List.cons_append, processChans, hstep]
    simp only [List.append_eq]
    rw [ih rest st (fun x hx => hall x (List.mem_cons_of_mem ch hx))]
    simp

theorem stepChannel_self (cn en ed c : String) (loc : Int) (st : GenState)
    (ch : Chan) (hd : ch.isDict = true) :
    findVal c (stepChannel cn en ed c loc st ch).1.lastEnd = some (loc + 120) ∧
    blocksFor c (stepChannel cn en ed c loc st ch).2 =
      (if annStartCalc (findVal c st.lastEnd) loc < loc then
        [(annStartCalc (findVal c st.lastEnd) loc, loc)] else []) ++
      [(loc, loc + 120)] := by
  unfold stepChannel
  simp only [hd, Bool.not_true, Bool.false_eq_true, if_false]
  constructor
  · simp [findVal]
  · have hle := annStartCalc_le (findVal c st.lastEnd) loc
    rcases lt_trichotomy (annStartCalc (findVal c st.lastEnd) loc) loc with h | h | h
    · rw [if_pos h]
      split_ifs <;> simp [blocksFor, blockOfItem, h]
    · rw [h, if_neg (lt_irrefl loc)]
      split_ifs <;> first | omega | simp [blocksFor, blockOfItem]
    · exact absurd h (by omega)

/-- The blocks one well-formed channel record emits for its id move the
last-end entry from `b` to `loc + 120` while respecting the segment
invariant, provided the previous end (if any) precedes the new start. -/
theorem segInv_step (b : Option Int) (loc : Int)
    (hb : ∀ bv, b = some bv → bv < loc) :
    segInv b (some (loc + 120))
      ((if annStartCalc b loc < loc then [(annStartCalc b loc, loc)] else []) ++
       [(loc, loc + 120)]) := by
  have hle := annStartCalc_le b loc
  have hlo : ∀ bv, b = some bv → bv ≤ annStartCalc b loc := by
    intro bv hbv
    rw [hbv]
    simp only [annStartCalc]
    rw [if_pos (hb bv hbv)]
  by_cases hlt : annStartCalc b loc < loc
  · rw [if_pos hlt]
    refine ⟨?_, ?_, ?_, ?_, ?_, ?_⟩
    · simp [List.chain'_cons]
    · intro p hp
      rcases List.mem_cons.mp hp with rfl | hp
      · simpa using le_of_lt hlt
      · rcases List.mem_cons.mp hp with rfl | hp
        · simp
        · simp at hp
    · intro bv hbv p hp
      have h1 := hlo bv hbv
      have h2 := hb bv hbv
      rcases List.mem_cons.mp hp with rfl | hp
      · simpa using h1
      · rcases List.mem_cons.mp hp with rfl | hp
        · simp
          omega
        · simp at hp
    · intro p hp
      refine ⟨loc + 120, rfl, ?_⟩
      rcases List.mem_cons.mp hp with rfl | hp
      · simp
      · rcases List.mem_cons.mp hp with rfl | hp
        · simp
        · simp at hp
    · intro hcon; simp at hcon
    · intro bv hbv
      have := hb bv hbv
      exact ⟨loc + 120, rfl, by omega⟩
  · rw [if_neg hlt]
    refine ⟨?_, ?_, ?_, ?_, ?_, ?_⟩
    · simp
    · intro p hp
      rcases List.mem_cons.mp hp with rfl | hp
      · simp
      · simp at hp
    · intro bv hbv p hp
      have h2 := hb bv hbv
      rcases List.mem_cons.mp hp with rfl | hp
      · simp
        omega
      · simp at hp
    · intro p hp
      refine ⟨loc + 120, rfl, ?_⟩
      rcases List.mem_cons.mp hp with rfl | hp
      · simp
      · simp at hp
    · intro hcon; simp at hcon
    · intro bv hbv
      have := hb bv hbv
      exact ⟨loc + 120, rfl, by omega⟩

/-- One admitted event of channel `c` with at most one well-formed channel
record realises the segment invariant. -/
theorem processEvent_segInv_c (now : Int) (d : DateRec) (n c : String)
    (st : GenState) (e : Event) (loc : Int)
    (hcid : eventCid e = c) (hadm : admitsB now d e = true)
    (hloc : eventLoc d e = some loc) (hdict : atMostOneDict e)
    (hb : ∀ bv, findVal c st.lastEnd = some bv → bv < loc) :
    segInv (findVal c st.lastEnd)
      (findVal c (processEvent now d n st e).1.lastEnd)
      (blocksFor c (processEvent now d n st e).2) ∧
    (findVal c (processEvent now d n st e).1.lastEnd = some (loc + 120) ∨
      findVal c (processEvent now d n st e).1.lastEnd =
        findVal c st.lastEnd) := by
  cases hpt : parseTimeHM (e.time.getD "00:00") with
  | none =>
    rw [eventLoc, hpt] at hloc
    cases hloc
  | some t =>
    rw [eventLoc, hpt, Option.map_some'] at hloc
    have hloceq : (toDays d : Int) * 1440 + (t : Int) + 120 = loc :=
      Option.some.injEq _ _ ▸ hloc
    rw [admitsB, eventLoc, hpt, Option.map_some'] at hadm
    rw [Bool.and_eq_true] at hadm
    obtain ⟨ha1, ha2⟩ := hadm
    have hstale : ¬((toDays d : Int) * 1440 + (t : Int) + 120 < now - 120) := by
      intro hcon
      rw [decide_eq_true hcon] at ha1
      simp at ha1
    have hne : e.channels ≠ [] := by
      intro hcon
      rw [hcon] at ha2
      simp at ha2
    rw [processEvent_eq_chans now d n st e t hpt hstale hne, hcid, hloceq]
    rcases hf : e.channels.filter (fun ch => ch.isDict) with _ | ⟨dch, rest2⟩
    · have hall : ∀ ch ∈ e.channels, ch.isDict = false := by
        intro ch hch
        cases hcd : ch.isDict with
        | false => rfl
        | true =>
          have : ch ∈ e.channels.filter (fun ch => ch.isDict) :=
            List.mem_filter.mpr ⟨hch, hcd⟩
          rw [hf] at this
          simp at this
      rw [processChans_nodict _ _ _ _ _ e.channels st hall]
      exact ⟨segInv_refl _, Or.inr rfl⟩
    · have hrest2 : rest2 = [] := by
        have hlen := hdict
        rw [atMostOneDict, hf] at hlen
        rw [List.length_cons] at hlen
        have hz : rest2.length = 0 := by omega
        exact List.length_eq_zero.mp hz
      subst hrest2
      obtain ⟨l1, l2, hsplit, hl1, hdch, hl2f⟩ := List.filter_eq_cons_iff.mp hf
      have hl1' : ∀ x ∈ l1, x.isDict = false := by
        intro x hx
        cases hcd : x.isDict with
        | false => rfl
        | true => exact absurd hcd (hl1 x hx)
      have hl2' : ∀ x ∈ l2, x.isDict = false := by
        intro x hx
        cases hcd : x.isDict with
        | false => rfl
        | true =>
          have : x ∈ l2.filter (fun ch => ch.isDict) :=
            List.mem_filter.mpr ⟨hx, hcd⟩
          rw [hl2f] at this
          simp at this
      rw [hsplit, processChans_skip_nodict _ _ _ _ _ l1 _ st hl1']
      simp only [processChans]
      rw [processChans_nodict _ _ _ _ _ l2 _ hl2']
      obtain ⟨hfv, hbl⟩ := stepChannel_self n
        (cleanText (e.title.getD "Evento Sconosciuto"))
        (e.description.getD "Trasmesso in diretta.") c loc st dch hdch
      simp only [hfv, List.append_nil]
      rw [hbl]
      exact ⟨segInv_step (findVal c st.lastEnd) loc hb, Or.inl trivial⟩

/-- Processing a tagged event list realises the segment invariant for
channel `c`, provided the admitted starts for `c` keep strictly more than
the two-hour main duration apart, all lie strictly above any recorded
previous end, and each admitted `c`-event has at most one well-formed
channel record. -/
theorem processTagged_segInv (now : Int) (d : DateRec) (c : String) :
    ∀ (l : List (String × Event)) (st : GenState),
      (locsC now d c l).Chain' (fun a b => a + 120 < b) →
      (∀ bv, findVal c st.lastEnd = some bv → ∀ s ∈ locsC now d c l, bv < s) →
      (∀ te ∈ l, eventCid te.2 = c → admitsB now d te.2 = true →
        atMostOneDict te.2) →
      segInv (findVal c st.lastEnd)
        (findVal c (processTagged now d st l).1.lastEnd)
        (blocksFor c (processTagged now d st l).2) := by
  intro l
  induction l with
  | nil => intro st _ _ _; exact segInv_refl _
  | cons te rest ih =>
    intro st hchain hbelow hdict
    have hdictrest : ∀ te' ∈ rest, eventCid te'.2 = c →
        admitsB now d te'.2 = true → atMostOneDict te'.2 :=
      fun te' h => hdict te' (List.mem_cons_of_mem te h)
    simp only [processTagged]
    rw [blocksFor_append]
    by_cases hcid : eventCid te.2 = c
    · cases hadm : admitsB now d te.2 with
      | false =>
        have hskip := processEvent_skip now d te.1 st te.2 hadm
        rw [hskip]
        have hlocs : locsC now d c (te :: rest) = locsC now d c rest := by
          simp only [locsC, List.filterMap_cons]
          rw [if_neg (fun hcon => by rw [hadm] at hcon; exact absurd hcon.2 (by simp))]
        rw [hlocs] at hchain hbelow
        have := ih st hchain hbelow hdictrest
        simpa [blocksFor] using this
      | true =>
        obtain ⟨loc, hloc⟩ : ∃ loc, eventLoc d te.2 = some loc := by
          rw [admitsB] at hadm
          cases hel : eventLoc d te.2 with
          | none => rw [hel] at hadm; simp at hadm
          | some v => exact ⟨v, rfl⟩
        have hlocs : locsC now d c (te :: rest) = loc :: locsC now d c rest := by
          simp only [locsC, List.filterMap_cons]
          rw [if_pos ⟨hcid, hadm⟩, hloc]
        rw [hlocs] at hchain hbelow
        have hb : ∀ bv, findVal c st.lastEnd = some bv → bv < loc :=
          fun bv hbv => hbelow bv hbv loc (List.mem_cons_self _ _)
        obtain ⟨hseg, hnewb⟩ := processEvent_segInv_c now d te.1 c st te.2 loc
          hcid hadm hloc (hdict te (List.mem_cons_self _ _) hcid hadm) hb
        have hchainrest := (List.chain'_cons'.mp hchain).2
        have hbelowrest : ∀ bv,
            findVal c (processEvent now d te.1 st te.2).1.lastEnd = some bv →
            ∀ s ∈ locsC now d c rest, bv < s := by
          intro bv hbv s hs
          rcases hnewb with hnew | hnew
          · rw [hnew] at hbv
            have hbveq : bv = loc + 120 := by
              injection hbv with h
              exact h.symm
            subst hbveq
            exact chain_gap_head hchain s hs
          · rw [hnew] at hbv
            exact hbelow bv hbv s (List.mem_cons_of_mem _ hs)
        have hrest := ih (processEvent now d te.1 st te.2).1
          hchainrest hbelowrest hdictrest
        exact segInv_append hseg hrest
    · have hother := processEvent_other now d te.1 c st te.2 hcid
      have hlocs : locsC now d c (te :: rest) = locsC now d c rest := by
        simp only [locsC, List.filterMap_cons]
        rw [if_neg (fun hcon => absurd hcon.1 hcid)]
      rw [hlocs] at hchain hbelow
      rw [hother.2, List.nil_append]
      have hbelow' : ∀ bv,
          findVal c (processEvent now d te.1 st te.2).1.lastEnd = some bv →
          ∀ s ∈ locsC now d c rest, bv < s := by
        intro bv hbv
        rw [hother.1] at hbv
        exact hbelow bv hbv
      have hrest := ih (processEvent now d te.1 st te.2).1
        hchain hbelow' hdictrest
      rw [hother.1] at hrest
      exact hrest

/-- C1, counterexample: two admitted events with the same resolved channel
id starting one hour apart (14:00 and 15:00, `now` 16:00 local on the same
day) produce overlapping blocks — the second event's announcement falls back
to midnight and overlaps the earlier blocks, and the two fixed-duration main
blocks overlap each other — so the per-channel blocks sorted by start are
not non-overlapping. -/
theorem c1_counterexample :
    chainOkB (sortByStart (blocksFor "MatchX"
      (generateEpgXml (exBase + 960) (load_json_for_epg exFeedC1)))) =
      false := by
  decide

/-- C1, amended: within one date section, for a channel whose admitted
events start strictly more than the fixed two-hour main duration apart (in
processing order) and each carry at most one well-formed channel record,
the emitted blocks are already in start order and are non-overlapping:
each block's stop is at most the next block's start. -/
theorem c1_amended (now : Int) (key : String) (cats : Categories)
    (c : String) (d : DateRec)
    (hp : parseDateKey key = some d)
    (hgap : (locsC now d c (dateSectionEvents cats)).Chain'
      (fun a b => a + 120 < b))
    (hdict : ∀ te ∈ dateSectionEvents cats, eventCid te.2 = c →
      admitsB now d te.2 = true → atMostOneDict te.2) :
    sortByStart (blocksFor c (generateEpgXml now [(key, cats)])) =
      blocksFor c (generateEpgXml now [(key, cats)]) ∧
    chainOkB (sortByStart (blocksFor c (generateEpgXml now [(key, cats)]))) =
      true := by
  have hgen : generateEpgXml now [(key, cats)] =
      (processDateSection now [] (key, cats)).2 := by
    simp [generateEpgXml, genAux]
  by_cases hpast : (toDays d : Int) < now / 1440
  · have hskip := processDateSection_skip_past now [] key cats d hp hpast
    rw [hgen, hskip]
    exact ⟨rfl, rfl⟩
  · have hsec : (processDateSection now [] (key, cats)).2 =
        (processCats now d ⟨[], []⟩ cats).2 := by
      unfold processDateSection
      simp only [hp]
      rw [if_neg hpast]
    rw [hgen, hsec, processCats_eq_tagged]
    have hseg := processTagged_segInv now d c (dateSectionEvents cats)
      ⟨[], []⟩ hgap (by intro bv hbv; simp [findVal] at hbv) hdict
    obtain ⟨hchain, hwf, _⟩ := hseg
    have hsorted := chain_start_le _ hchain hwf
    have heq := isortBy_eq_self
      (fun (a b : Int × Int) => decide (a.1 ≤ b.1)) _ hsorted
    refine ⟨heq, ?_⟩
    rw [show sortByStart (blocksFor c
        (processTagged now d ⟨[], []⟩ (dateSectionEvents cats)).2) =
        blocksFor c
          (processTagged now d ⟨[], []⟩ (dateSectionEvents cats)).2 from heq]
    exact (chainOkB_iff _).mpr hchain

/-- Witness for C1 at concrete inputs: two admitted same-channel events four
hours apart chain without overlap. -/
theorem c1_witness :
    sortByStart (blocksFor "MatchX" (generateEpgXml (exBase + 720)
      [("Sunday 12 Oct 2025", exCatsC1)])) =
      blocksFor "MatchX" (generateEpgXml (exBase + 720)
        [("Sunday 12 Oct 2025", exCatsC1)]) ∧
    chainOkB (sortByStart (blocksFor "MatchX" (generateEpgXml (exBase + 720)
      [("Sunday 12 Oct 2025", exCatsC1)]))) = true :=
  c1_amended (exBase + 720) "Sunday 12 Oct 2025" exCatsC1 "MatchX"
    ⟨2025, 10, 12⟩ (by decide) ((gapChainB_iff _).mp (by decide)) (by decide)

end TV
